import Mathlib

/-!
Verification of the outline-navigation core of the glow pager.

The definitions below are a shallow embedding of the Go sources:
  * `ui/outline.go` (provided as `src/unnamed/part_007`): heading extraction,
    the outline sidebar model and its navigation operations;
  * `ui/pager.go`: `jumpToHeading`, `updateCurrentHeading`, `setSize`.
Go strings are modelled as `String`/`List Char`, Go `int` as `Int` (or `Nat`
where the source value is a length or a 0-based index), and the two sidebar
sub-viewport refresh helpers (`updateViewport`, `ensureCursorVisible`,
`ensureCurrentVisible`), which only rebuild the derived sidebar text and
scroll the sidebar's own sub-viewport, act on state that is outside the
model and are therefore identities here.
-/

namespace Glow

/-- Go regexp (RE2) character class `\s`, i.e. `[\t\n\f\r ]`. -/
def goWS (c : Char) : Bool :=
  c = '\t' || c = '\n' || c = '\x0c' || c = '\r' || c = ' '

/-- Go `unicode.IsSpace`, used by `strings.TrimSpace`: the White_Space
property (Latin-1 fast path plus the spaces above U+00FF). -/
def goIsSpace (c : Char) : Bool :=
  c = '\t' || c = '\n' || c = '\x0b' || c = '\x0c' || c = '\r' || c = ' ' ||
  c = '\x85' || c = '\xa0' ||
  c = '\u1680' || ('\u2000' ≤ c && c ≤ '\u200a') ||
  c = '\u2028' || c = '\u2029' || c = '\u202f' || c = '\u205f' || c = '\u3000'

/-- Go `strings.TrimSpace`: drop leading and trailing white space. -/
def trimSpace (l : List Char) : List Char :=
  ((l.dropWhile goIsSpace).reverse.dropWhile goIsSpace).reverse

/-- Helper for `splitLines`: accumulates the current line (reversed). -/
def splitLinesAux : List Char → List Char → List (List Char)
  | [], acc => [acc.reverse]
  | c :: cs, acc =>
    if c = '\n' then acc.reverse :: splitLinesAux cs []
    else splitLinesAux cs (c :: acc)

/-- Go `strings.Split(s, "\n")`: split at every newline; the empty string
yields one empty line. -/
def splitLines (cs : List Char) : List (List Char) :=
  splitLinesAux cs []

/-- Go `strings.Count(s, "\n")`. -/
def countNL (s : String) : Nat :=
  s.data.count '\n'

/-!
Model of the heading regular expression of `outline.go`:

  `headingRegex = (?m)^(#{1,6})\s+(.+?)(?:\s+#+)?$`

applied by `parseHeadings` to a single line (so the subject contains no
newline).  The definitions below compute the same submatches as Go's
leftmost-first matching does:

  * group 1 is the maximal leading run of `#`, and there is no match at all
    unless that run has length 1..6 and is followed by white space
    (a shorter run would have to be followed by `#`, which `\s` rejects);
  * the greedy `\s+` takes the maximal white-space run, except that when
    the whole remainder of the line is white space it leaves one character
    for `.+?` (and there is no match if it cannot);
  * the lazy `(.+?)` grows from length 1 until the remaining suffix either
    matches the closing group `\s+#+` entirely (checked by `closingRun`) or
    is empty; `afterFirst` returns exactly the characters group 2 takes
    after its first one.
-/

/-- Does `l` match `\s+#+` entirely (the optional closing-hash group,
anchored at `$`)? -/
def closingRun (l : List Char) : Bool :=
  let ws := l.takeWhile goWS
  let rest := l.drop ws.length
  !ws.isEmpty && !rest.isEmpty && rest.all (· = '#')

/-- Characters the lazy group 2 takes after its first one: keep consuming
until the rest of the line is exactly a closing `\s+#+` run. -/
def afterFirst : List Char → List Char
  | [] => []
  | d :: ds => if closingRun (d :: ds) then [] else d :: afterFirst ds

/-- The submatch extraction of `headingRegex` on one line: `some (level,
group 2)` when the line is an ATX heading, `none` otherwise. -/
def matchHeading (cs : List Char) : Option (Nat × List Char) :=
  let k := (cs.takeWhile (· = '#')).length
  if k = 0 ∨ 6 < k then none
  else
    let rest := cs.drop k
    let w := (rest.takeWhile goWS).length
    if w = 0 then none
    else
      let r := if rest.length ≤ w then (if 2 ≤ w then rest.drop (w - 1) else [])
               else rest.drop w
      match r with
      | [] => none
      | c :: rs => some (k, c :: afterFirst rs)

/-- A markdown heading (`Heading` of `outline.go`).  `renderedLine` is the
0-based line in the rendered output, `-1` when unresolved; the field exists
in the repository (its tests and `pager.go` use it) though the provided
copy of the struct predates it. -/
structure Heading where
  level : Nat
  text : String
  line : Nat
  renderedLine : Int
deriving DecidableEq, Repr

instance : Inhabited Heading := ⟨⟨0, "", 0, 0⟩⟩

/-- Fence test of `parseHeadings`: the trimmed line starts with three
backticks or three tildes. -/
def isFenceLine (l : List Char) : Bool :=
  List.isPrefixOf ['\x60', '\x60', '\x60'] (trimSpace l) ||
  List.isPrefixOf ['~', '~', '~'] (trimSpace l)

/-- Line loop of `parseHeadings`: `i` is the index of the first line of
`ls` in the document, `inCodeBlock` the fence flag.
Modelled from the spec: the `renderedLine` of a freshly parsed heading is
the unresolved sentinel `-1` (§4.1: output has `renderedLine` left
unresolved; the sentinel is negative, see `jumpToHeading`); the provided
copy of the struct predates the field. -/
def parseHeadingsAux : List (List Char) → Nat → Bool → List Heading
  | [], _, _ => []
  | l :: ls, i, inCodeBlock =>
    if isFenceLine l then parseHeadingsAux ls (i + 1) (!inCodeBlock)
    else if inCodeBlock then parseHeadingsAux ls (i + 1) inCodeBlock
    else
      match matchHeading l with
      | some (lvl, g2) =>
        ⟨lvl, String.mk (trimSpace g2), i, -1⟩ :: parseHeadingsAux ls (i + 1) inCodeBlock
      | none => parseHeadingsAux ls (i + 1) inCodeBlock

/-- `parseHeadings` of `outline.go`: extract the ATX headings of a raw
markdown document, skipping fenced code blocks. -/
def parseHeadings (markdown : String) : List Heading :=
  parseHeadingsAux (splitLines markdown.data) 0 false

/-- The outline sidebar state (`outlineModel` of `outline.go`).  The
sidebar's own scrollable sub-viewport holds only derived presentation
state (its text is rebuilt from the fields below by `updateViewport`) and
is not part of the model. -/
structure OutlineModel where
  headings : List Heading
  cursor : Int
  current : Int
  width : Int
  height : Int
  visible : Bool
  focused : Bool
deriving DecidableEq, Repr

/-- `newOutlineModel`: the empty outline (Go zero values, `visible` and
`focused` explicitly false). -/
def initOutline : OutlineModel :=
  ⟨[], 0, 0, 0, 0, false, false⟩

/-- `setContent` of `outline.go`: rebuild the headings, reset `cursor` and
`current`. -/
def OutlineModel.setContent (m : OutlineModel) (markdown : String) : OutlineModel :=
  { m with headings := parseHeadings markdown, cursor := 0, current := 0 }

/-- `setSize` of `outline.go`. -/
def OutlineModel.setSize (m : OutlineModel) (w h : Int) : OutlineModel :=
  { m with width := w, height := h }

/-- `calculateOutlineWidth` of `outline.go`: 0 below the 80-column minimum,
otherwise 25% of the terminal width clamped to [20, 40].  Go `/` on `int`
is truncated division, `Int.div` here. -/
def calculateOutlineWidth (termWidth : Int) : Int :=
  if termWidth < 80 then 0
  else
    let width := Int.tdiv (termWidth * 25) 100
    let width := if width < 20 then 20 else width
    if 40 < width then 40 else width

/-- `moveCursorUp` of `outline.go` (`ensureCursorVisible` only scrolls the
sidebar sub-viewport). -/
def OutlineModel.moveCursorUp (m : OutlineModel) : OutlineModel :=
  if 0 < m.cursor then { m with cursor := m.cursor - 1 } else m

/-- `moveCursorDown` of `outline.go`. -/
def OutlineModel.moveCursorDown (m : OutlineModel) : OutlineModel :=
  if m.cursor < (m.headings.length : Int) - 1 then { m with cursor := m.cursor + 1 } else m

/-- The scan loop of `updateCurrent`: keep the index of the latest heading
with `line ≤ lineNum`, stopping at the first heading past `lineNum`
(the loop's `break`).  `i` is the index of the first listed heading,
`acc` the best index so far (initially 0). -/
def scanCurrent (lineNum : Int) : List Heading → Int → Int → Int
  | [], _, acc => acc
  | h :: hs, i, acc =>
    if (h.line : Int) ≤ lineNum then scanCurrent lineNum hs (i + 1) i else acc

/-- `updateCurrent` of `outline.go`: recompute `current` from a raw line
number; no state change when the heading list is empty or the computed
index equals the existing `current`. -/
def OutlineModel.updateCurrent (m : OutlineModel) (lineNum : Int) : OutlineModel :=
  if m.headings = [] then m
  else
    let newCurrent := scanCurrent lineNum m.headings 0 0
    if newCurrent ≠ m.current then { m with current := newCurrent } else m

/-- `nextHeadingIndex` of `outline.go`. -/
def OutlineModel.nextHeadingIndex (m : OutlineModel) : Int :=
  if m.current < (m.headings.length : Int) - 1 then m.current + 1 else -1

/-- `prevHeadingIndex` of `outline.go`. -/
def OutlineModel.prevHeadingIndex (m : OutlineModel) : Int :=
  if 0 < m.current then m.current - 1 else -1

/-- The `g`/`home` key of the outline's `update`: cursor to the first
heading. -/
def OutlineModel.cursorHome (m : OutlineModel) : OutlineModel :=
  { m with cursor := 0 }

/-- The `G`/`end` key of the outline's `update`: cursor to the last heading
when the list is non-empty. -/
def OutlineModel.cursorEnd (m : OutlineModel) : OutlineModel :=
  if 0 < m.headings.length then { m with cursor := (m.headings.length : Int) - 1 } else m

/-- The `tab` key of the pager: when focus moves into the sidebar the
cursor is synchronized to `current`. -/
def OutlineModel.syncCursor (m : OutlineModel) : OutlineModel :=
  { m with cursor := m.current }

/-- The effect of the pager's `jumpToHeading` on the outline state: an
in-range index becomes both `current` and `cursor`, anything else is
ignored (see `jumpToHeading` below). -/
def OutlineModel.jumpSelect (m : OutlineModel) (i : Int) : OutlineModel :=
  if 0 ≤ i ∧ i < (m.headings.length : Int) then { m with current := i, cursor := i } else m

/-!
The rendered-line mapper.  `mapHeadingsToRenderedLines` is code of this
repository that is not among the provided sources — only its tests
(`outline_test.go`) and its callers (`pager.go`) are.  The definitions
below are modelled from the spec, §4.2.
-/

/-- Modelled from the spec: stripping of styling escape sequences before
text comparison (§4.2).  A CSI sequence `ESC [ … letter` is removed; the
flag is true while inside one. -/
def stripAnsiAux : Bool → List Char → List Char
  | _, [] => []
  | true, c :: cs => if c.isAlpha then stripAnsiAux false cs else stripAnsiAux true cs
  | false, c :: cs =>
    if c = '\x1b' then stripAnsiAux true cs else c :: stripAnsiAux false cs

/-- Modelled from the spec: case-insensitive comparison (§4.2) — lower-case
a line after stripping escapes. -/
def normLine (l : List Char) : List Char :=
  (stripAnsiAux false l).map Char.toLower

/-- Does `ndl` occur as a contiguous subsequence of `hay`? -/
def containsSeq (hay ndl : List Char) : Bool :=
  match hay with
  | [] => ndl.isEmpty
  | c :: cs => List.isPrefixOf ndl (c :: cs) || containsSeq cs ndl

/-- Modelled from the spec: find the first rendered line at index ≥ `i`
containing the heading text (§4.2 monotonic forward search). -/
def findFrom (ndl : List Char) : List (List Char) → Nat → Option Nat
  | [], _ => none
  | l :: ls, i => if containsSeq l ndl then some i else findFrom ndl ls (i + 1)

/-- Modelled from the spec: assign each heading, in document order, the
first matching rendered line at or after the search start; a heading with
no match gets the sentinel `-1` and does not advance the start (§4.2). -/
def mapHeadingsAux (rls : List (List Char)) : List Heading → Nat → List Heading
  | [], _ => []
  | h :: hs, start =>
    match findFrom (normLine h.text.data) (rls.drop start) start with
    | some ln => { h with renderedLine := (ln : Int) } :: mapHeadingsAux rls hs (ln + 1)
    | none => { h with renderedLine := -1 } :: mapHeadingsAux rls hs start

/-- Modelled from the spec: `mapHeadingsToRenderedLines` — a no-op on empty
rendered text (§4.2 empty-input rule, witnessed by
`TestMapHeadingsToRenderedLines_Empty`), otherwise the monotonic
best-effort assignment of `renderedLine`. -/
def OutlineModel.mapHeadingsToRenderedLines (m : OutlineModel) (rendered : String) : OutlineModel :=
  if rendered = "" then m
  else
    let rls := (splitLines rendered.data).map normLine
    { m with headings := mapHeadingsAux rls m.headings 0 }

/-- The content viewport of the pager, reduced to the quantities the
outline core consumes (§6): scroll offset, height, and the total rendered
line count (`TotalLineCount`). -/
structure Viewport where
  yOffset : Int
  width : Int
  height : Int
  lineCount : Nat
deriving DecidableEq, Repr

/-- The pager state relevant to outline navigation (`pagerModel` of
`pager.go`).  `body` is `currentDocument.Body`; `isMarkdown` models the
value of `isMarkdownFile()` (a pure function of the document's note, whose
helper is outside the provided sources). -/
structure PagerModel where
  outline : OutlineModel
  viewport : Viewport
  body : String
  showOutline : Bool
  outlineFocused : Bool
  isMarkdown : Bool
deriving DecidableEq, Repr

/-- `scrollOff` of `pager.go`. -/
def scrollOff : Int := 5

/-- Model of Go `int(float64(a)/float64(b) * float64(c))`: the float64
ratio arithmetic is modelled by exact rational arithmetic truncated toward
zero (`Int.tdiv`), which agrees with the float computation at every input
appearing in the theorems below. -/
def goScale (a b c : Int) : Int :=
  Int.tdiv (a * c) b

/-- `jumpToHeading` of `pager.go`: silently ignore out-of-range indices;
scroll so the target heading — the resolved `renderedLine`, otherwise a
ratio approximation — sits `scrollOff` lines from the top, clamped to the
valid offset range; select the heading as both `current` and `cursor`.
The source's separate `totalRawLines == 0` early return (unreachable, as
the count is newlines + 1) is the first disjunct of the fallback guard. -/
def jumpToHeading (m : PagerModel) (headingIndex : Int) : PagerModel :=
  if headingIndex < 0 ∨ (m.outline.headings.length : Int) ≤ headingIndex then m
  else
    match m.outline.headings[headingIndex.toNat]? with
    | none => m
    | some heading =>
      if heading.renderedLine < 0 ∧ ((countNL m.body : Int) + 1) = 0 then m
      else
        let targetLine : Int :=
          if heading.renderedLine < 0 then
            goScale (heading.line : Int) ((countNL m.body : Int) + 1) (m.viewport.lineCount : Int)
          else heading.renderedLine
        let scrollTarget := targetLine - scrollOff
        let scrollTarget := if scrollTarget < 0 then 0 else scrollTarget
        let maxOffset := (m.viewport.lineCount : Int) - m.viewport.height
        let maxOffset := if maxOffset < 0 then 0 else maxOffset
        let scrollTarget := if maxOffset < scrollTarget then maxOffset else scrollTarget
        { m with
          viewport := { m.viewport with yOffset := scrollTarget },
          outline := { m.outline with current := headingIndex, cursor := headingIndex } }

/-- `updateCurrentHeading` of `pager.go`: convert the scroll offset back to
an approximate raw line and delegate to `updateCurrent`. -/
def updateCurrentHeading (m : PagerModel) : PagerModel :=
  if m.outline.headings = [] then m
  else if m.viewport.lineCount = 0 then m
  else
    let rawLine := goScale m.viewport.yOffset (m.viewport.lineCount : Int)
      ((countNL m.body : Int) + 1)
    { m with outline := m.outline.updateCurrent rawLine }

/-- `setSize` of `pager.go`, without the help-pane height adjustment
(which only shrinks `viewport.height` further and is irrelevant to the
outline claims): decide sidebar visibility and split the width. -/
def pagerSetSize (m : PagerModel) (w h : Int) : PagerModel :=
  if m.showOutline && m.isMarkdown then
    let outlineWidth := calculateOutlineWidth w
    if 0 < outlineWidth then
      { m with
        outline := { (m.outline.setSize outlineWidth (h - 1)) with visible := true },
        viewport := { m.viewport with width := w - outlineWidth, height := h - 1 } }
    else
      { m with
        outline := { m.outline with visible := false },
        viewport := { m.viewport with width := w, height := h - 1 } }
  else
    { m with
      outline := { m.outline with visible := false },
      viewport := { m.viewport with width := w, height := h - 1 } }

/-!
Reachable outline states: every mutation of the outline state found in the
sources (`outline.go` key handling and `setContent`/`setSize`, plus the
pager's focus toggling, jump selection, scroll synchronization and
rendered-line mapping), starting from `newOutlineModel`.
-/

/-- One outline-state mutation, as performed by the UI update loop. -/
inductive OutlineStep : OutlineModel → OutlineModel → Prop where
  | setContent (m : OutlineModel) (md : String) : OutlineStep m (m.setContent md)
  | setSize (m : OutlineModel) (w h : Int) : OutlineStep m (m.setSize w h)
  | moveUp (m : OutlineModel) : OutlineStep m m.moveCursorUp
  | moveDown (m : OutlineModel) : OutlineStep m m.moveCursorDown
  | cursorHome (m : OutlineModel) : OutlineStep m m.cursorHome
  | cursorEnd (m : OutlineModel) : OutlineStep m m.cursorEnd
  | syncCursor (m : OutlineModel) : OutlineStep m m.syncCursor
  | setVisible (m : OutlineModel) (b : Bool) : OutlineStep m { m with visible := b }
  | setFocused (m : OutlineModel) (b : Bool) : OutlineStep m { m with focused := b }
  | updateCur (m : OutlineModel) (l : Int) : OutlineStep m (m.updateCurrent l)
  | jumpSel (m : OutlineModel) (i : Int) : OutlineStep m (m.jumpSelect i)
  | mapRendered (m : OutlineModel) (s : String) : OutlineStep m (m.mapHeadingsToRenderedLines s)

/-- Outline states reachable from the initial model. -/
def ReachableOutline (m : OutlineModel) : Prop :=
  Relation.ReflTransGen OutlineStep initOutline m

/-!
Spec-side definitions, used to state the claims (never by the embedding).
-/

/-- Does this heading start at or before raw line `lineNum`? -/
def lineLE (lineNum : Int) (h : Heading) : Bool :=
  decide ((h.line : Int) ≤ lineNum)

/-- Index of the last heading whose raw line is at most `lineNum`, 0 when
there is none — the selection `updateCurrent` is specified to compute. -/
def lastIdxLE (hs : List Heading) (lineNum : Int) : Nat :=
  (((hs.enum.filter fun p => lineLE lineNum p.2).getLast?).map Prod.fst).getD 0

/-- Line `i` of the document lies inside a fenced code block: an odd
number of fence-marker lines precede it. -/
def insideFence (markdown : String) (i : Nat) : Prop :=
  ((splitLines markdown.data).take i).countP (fun l => isFenceLine l) % 2 = 1

/-- The cursor/current range invariant of the outline state: both indices
are 0 on an empty heading list and within [0, count) otherwise. -/
def cursorCurrentInRange (m : OutlineModel) : Prop :=
  (m.headings = [] → m.cursor = 0 ∧ m.current = 0) ∧
  (m.headings ≠ [] → 0 ≤ m.cursor ∧ m.cursor < (m.headings.length : Int) ∧
    0 ≤ m.current ∧ m.current < (m.headings.length : Int))

-- scratch checks (to be removed)
/-!
Concrete states used by the closed theorems below.  `cexPager` is a pager
whose two headings both have resolved rendered lines but whose rendered
document is much longer than the raw one; `witPager` differs only in the
second heading's rendered line.
-/

/-- A pager state: raw body of 2 lines, rendered content of 100 lines,
both headings resolved. -/
def cexPager : PagerModel :=
  { outline := { initOutline with
      headings := [⟨1, "A", 0, 0⟩, ⟨1, "B", 1, 50⟩], visible := true },
    viewport := { yOffset := 0, width := 80, height := 10, lineCount := 100 },
    body := "# A\n# B",
    showOutline := true, outlineFocused := false, isMarkdown := true }

/-- Like `cexPager`, with the second heading rendered far enough down that
the ratio inversion recovers its raw line. -/
def witPager : PagerModel :=
  { cexPager with outline := { cexPager.outline with
      headings := [⟨1, "A", 0, 0⟩, ⟨1, "B", 1, 80⟩] } }

/-- The target rendered line of a jump (spec §4.4 steps 2-3): the
heading's `renderedLine` when resolved, otherwise the raw line scaled by
rendered/raw ratio. -/
def jumpTarget (m : PagerModel) (i : Int) : Int :=
  if (m.outline.headings.getD i.toNat default).renderedLine < 0 then
    goScale ((m.outline.headings.getD i.toNat default).line : Int)
      ((countNL m.body : Int) + 1) (m.viewport.lineCount : Int)
  else (m.outline.headings.getD i.toNat default).renderedLine

/-- The approximate raw line recovered by `updateCurrentHeading` right
after `jumpToHeading` at index `i` (spec §4.5). -/
def recoveredRaw (m : PagerModel) (i : Nat) : Int :=
  goScale (jumpToHeading m (i : Int)).viewport.yOffset
    ((jumpToHeading m (i : Int)).viewport.lineCount : Int)
    ((countNL (jumpToHeading m (i : Int)).body : Int) + 1)

/-!
General list lemmas used by several claims.
-/

theorem dropWhile_eq_self_of_all {p : Char → Bool} :
    ∀ {l : List Char}, (∀ c ∈ l, p c = false) → l.dropWhile p = l
  | [], _ => rfl
  | c :: l, h => by
    have hc : p c = false := h c (by simp)
    simp [List.dropWhile, hc]

theorem trimSpace_eq_self_of_all {l : List Char}
    (h : ∀ c ∈ l, goIsSpace c = false) : trimSpace l = l := by
  unfold trimSpace
  rw [dropWhile_eq_self_of_all h, dropWhile_eq_self_of_all, List.reverse_reverse]
  intro c hc
  exact h c (List.mem_reverse.mp hc)

theorem dropWhile_append_singleton {p : Char → Bool} {c : Char} (hc : p c = false) :
    ∀ (l : List Char), (l ++ [c]).dropWhile p = l.dropWhile p ++ [c]
  | [] => by simp [List.dropWhile, hc]
  | d :: l => by
    by_cases hd : p d
    · simpa [List.dropWhile, hd] using dropWhile_append_singleton hc l
    · simp [List.dropWhile, hd]

theorem trimSpace_cons {c : Char} (hc : goIsSpace c = false) (l : List Char) :
    trimSpace (c :: l) = c :: ((l.reverse.dropWhile goIsSpace).reverse) := by
  unfold trimSpace
  rw [List.dropWhile_cons_of_neg (by simp [hc]), List.reverse_cons,
    dropWhile_append_singleton hc, List.reverse_append]
  rfl

theorem splitLinesAux_no_nl :
    ∀ (cs acc : List Char), (∀ c ∈ cs, c ≠ '\n') →
      splitLinesAux cs acc = [acc.reverse ++ cs]
  | [], acc, _ => by simp [splitLinesAux]
  | c :: cs, acc, h => by
    have hc : c ≠ '\n' := h c (by simp)
    rw [splitLinesAux, if_neg hc, splitLinesAux_no_nl cs (c :: acc)
      (fun d hd => h d (by simp [hd]))]
    simp

theorem splitLines_no_nl {cs : List Char} (h : ∀ c ∈ cs, c ≠ '\n') :
    splitLines cs = [cs] := by
  simpa using splitLinesAux_no_nl cs [] h

/-!
Claim C9: the rendered-line mapper is a no-op on empty rendered text.
-/

/-- C9.  For every outline state, invoking the rendered-line mapper with
empty rendered text leaves the state — in particular every previously
assigned `renderedLine` — untouched. -/
theorem mapHeadings_empty_noop (m : OutlineModel) :
    m.mapHeadingsToRenderedLines "" = m := by
  simp [OutlineModel.mapHeadingsToRenderedLines]

/-!
Claim C10: sidebar width calculation and the visibility rule of `setSize`.
-/

/-- C10.  Below 80 columns `calculateOutlineWidth` is 0 and `setSize`
forces the sidebar invisible; from 80 columns on it is 25% of the width
clamped to [20, 40]; whenever `setSize` leaves the sidebar visible its
width is between 20 and 40 cells. -/
theorem calculateOutlineWidth_spec (w : Int) :
    (w < 80 → calculateOutlineWidth w = 0 ∧
      ∀ (m : PagerModel) (h : Int), (pagerSetSize m w h).outline.visible = false) ∧
    (80 ≤ w → calculateOutlineWidth w = min 40 (max 20 (Int.tdiv (w * 25) 100)) ∧
      20 ≤ calculateOutlineWidth w ∧ calculateOutlineWidth w ≤ 40) ∧
    (∀ (m : PagerModel) (h : Int), (pagerSetSize m w h).outline.visible = true →
      20 ≤ (pagerSetSize m w h).outline.width ∧ (pagerSetSize m w h).outline.width ≤ 40) := by
  have hcalc : ∀ hw : 80 ≤ w,
      calculateOutlineWidth w = min 40 (max 20 (Int.tdiv (w * 25) 100)) := by
    intro hw
    unfold calculateOutlineWidth
    rw [if_neg (by omega)]
    generalize Int.tdiv (w * 25) 100 = q
    dsimp only
    split_ifs <;> simp [min_def, max_def] <;> omega
  have hpos : ∀ ow : Int, calculateOutlineWidth w = ow → 0 < ow → 20 ≤ ow ∧ ow ≤ 40 := by
    intro ow how hpos
    unfold calculateOutlineWidth at how
    by_cases hw : w < 80
    · rw [if_pos hw] at how; omega
    · rw [if_neg hw] at how
      generalize Int.tdiv (w * 25) 100 = q at how
      dsimp only at how
      split_ifs at how <;> omega
  refine ⟨?_, ?_, ?_⟩
  · intro hw
    have h0 : calculateOutlineWidth w = 0 := by
      unfold calculateOutlineWidth; rw [if_pos hw]
    refine ⟨h0, ?_⟩
    intro m h
    unfold pagerSetSize
    by_cases hb : m.showOutline && m.isMarkdown
    · rw [if_pos hb, h0]
      norm_num
    · rw [if_neg hb]
  · intro hw
    have := hcalc hw
    have hq : 0 ≤ Int.tdiv (w * 25) 100 := by
      apply Int.tdiv_nonneg <;> omega
    refine ⟨this, ?_, ?_⟩ <;> rw [this] <;> simp [min_def, max_def] <;> omega
  · intro m h
    unfold pagerSetSize
    by_cases hb : m.showOutline && m.isMarkdown
    · rw [if_pos hb]
      by_cases how : 0 < calculateOutlineWidth w
      · rw [if_pos how]
        intro _
        simpa [OutlineModel.setSize] using hpos _ rfl how
      · rw [if_neg how]
        intro hvis
        simp at hvis
    · rw [if_neg hb]
      intro hvis
      simp at hvis

/-- Witness for C10 at concrete widths: 60 columns gives width 0 and an
invisible sidebar; 100 columns gives width 25, inside [20, 40]. -/
theorem calculateOutlineWidth_spec_witness :
    calculateOutlineWidth 60 = 0 ∧ (pagerSetSize cexPager 60 24).outline.visible = false ∧
    (20 ≤ calculateOutlineWidth 100 ∧ calculateOutlineWidth 100 ≤ 40) :=
  ⟨((calculateOutlineWidth_spec 60).1 (by decide)).1,
   ((calculateOutlineWidth_spec 60).1 (by decide)).2 cexPager 24,
   ((calculateOutlineWidth_spec 100).2.1 (by decide)).2⟩

/-!
Claim C7: out-of-range jump indices change nothing.
-/

/-- C7.  `jumpToHeading` with a negative index or one at or past the
heading count returns the pager state unchanged: headings, cursor,
current, the sidebar flags and the viewport scroll offset all keep their
values. -/
theorem jumpToHeading_out_of_range_noop (m : PagerModel) (i : Int)
    (h : i < 0 ∨ (m.outline.headings.length : Int) ≤ i) :
    jumpToHeading m i = m := by
  unfold jumpToHeading
  rw [if_pos h]

/-- Witness for C7: jumping to index -1 and to index 100 of the concrete
two-heading pager state changes nothing. -/
theorem jumpToHeading_out_of_range_noop_witness :
    jumpToHeading cexPager (-1) = cexPager ∧ jumpToHeading cexPager 100 = cexPager :=
  ⟨jumpToHeading_out_of_range_noop cexPager (-1) (by left; decide),
   jumpToHeading_out_of_range_noop cexPager 100 (by right; decide)⟩

/-!
Claim C5: `updateCurrent` selects the last heading at or before the line.
-/

theorem scanCurrent_closed (L : Int) :
    ∀ (hs : List Heading) (i acc : Int),
      scanCurrent L hs i acc =
        if (hs.takeWhile (lineLE L)).length = 0 then acc
        else i + ((hs.takeWhile (lineLE L)).length : Int) - 1
  | [], i, acc => by simp [scanCurrent, List.takeWhile]
  | h :: hs, i, acc => by
    by_cases hh : (h.line : Int) ≤ L
    · rw [scanCurrent, if_pos hh, scanCurrent_closed L hs (i + 1) i,
        List.takeWhile_cons_of_pos (by simp [lineLE, hh])]
      by_cases h0 : (hs.takeWhile (lineLE L)).length = 0 <;>
        simp [h0] <;> omega
    · rw [scanCurrent, if_neg hh,
        List.takeWhile_cons_of_neg (by simp [lineLE, hh])]
      simp

theorem snd_mem_enumFrom :
    ∀ (l : List Heading) (n : Nat) (x : Nat × Heading),
      x ∈ List.enumFrom n l → x.2 ∈ l
  | [], _, _, hx => by simp [List.enumFrom] at hx
  | a :: l, n, x, hx => by
    rw [List.enumFrom] at hx
    rcases List.mem_cons.mp hx with h | h
    · subst h; simp
    · exact List.mem_cons.mpr (Or.inr (snd_mem_enumFrom l (n + 1) x h))

theorem lastIdxLE_enumFrom (L : Int) :
    ∀ (hs : List Heading) (n : Nat), hs.Pairwise (fun a b => a.line < b.line) →
      ((((List.enumFrom n hs).filter fun p => lineLE L p.2).getLast?).map Prod.fst).getD 0
        = if (hs.takeWhile (lineLE L)).length = 0 then 0
          else n + (hs.takeWhile (lineLE L)).length - 1
  | [], n, _ => by simp [List.enumFrom, List.takeWhile]
  | h :: t, n, hsort => by
    have htail : t.Pairwise (fun a b => a.line < b.line) :=
      (List.pairwise_cons.mp hsort).2
    have hrel : ∀ x ∈ t, h.line < x.line := (List.pairwise_cons.mp hsort).1
    rw [List.enumFrom]
    by_cases hh : (h.line : Int) ≤ L
    · rw [List.filter_cons_of_pos (by simp [lineLE, hh]),
        List.takeWhile_cons_of_pos (by simp [lineLE, hh])]
      rcases hF : (List.enumFrom (n + 1) t).filter (fun p => lineLE L p.2) with _ | ⟨f, fs⟩
      · have htw : (t.takeWhile (lineLE L)).length = 0 := by
          rcases t with _ | ⟨x, t'⟩
          · simp [List.takeWhile]
          · have hx : lineLE L x = false := by
              have h' := List.filter_eq_nil_iff.mp hF (n + 1, x) (by rw [List.enumFrom]; simp)
              cases hlx : lineLE L x
              · rfl
              · exact absurd hlx h'
            simp [List.takeWhile_cons, hx]
        rw [hF]
        simp [htw, List.getLast?]
      · have hne : (t.takeWhile (lineLE L)).length ≠ 0 := by
          intro h0
          rcases t with _ | ⟨x, t'⟩
          · simp [List.enumFrom] at hF
          · by_cases hx : lineLE L x = true
            · rw [List.takeWhile_cons_of_pos hx] at h0
              simp at h0
            · have hx' : (x.line : Int) ≤ L → False := by
                intro hc
                exact hx (by simp [lineLE, hc])
              have hall : ∀ p ∈ List.enumFrom (n + 1) (x :: t'),
                  ¬ (lineLE L p.2 = true) := by
                intro p hp
                have hp2 : p.2 ∈ x :: t' := snd_mem_enumFrom _ _ _ hp
                rcases List.mem_cons.mp hp2 with h2 | h2
                · rw [h2]; exact fun hc => hx hc
                · have hgt : x.line < p.2.line :=
                    (List.pairwise_cons.mp htail).1 _ h2
                  simp only [lineLE, decide_eq_true_eq]
                  intro hc
                  apply hx'
                  have : (x.line : Int) < (p.2.line : Int) := by exact_mod_cast hgt
                  omega
              rw [List.filter_eq_nil_iff.mpr hall] at hF
              exact (List.cons_ne_nil f fs) hF.symm
        have hIH := lastIdxLE_enumFrom L t (n + 1) htail
        rw [hF] at hIH
        rw [hF, List.getLast?_cons_cons, hIH, if_neg hne]
        rw [List.length_cons, if_neg (Nat.succ_ne_zero _)]
        omega
    · have hallfail : ∀ p ∈ List.enumFrom (n + 1) t, ¬ (lineLE L p.2 = true) := by
        intro p hp
        have hp2 : p.2 ∈ t := snd_mem_enumFrom _ _ _ hp
        have hgt : h.line < p.2.line := hrel _ hp2
        simp only [lineLE, decide_eq_true_eq]
        intro hc
        apply hh
        have : (h.line : Int) < (p.2.line : Int) := by exact_mod_cast hgt
        omega
      rw [List.filter_cons_of_neg (by simp [lineLE, hh]),
        List.filter_eq_nil_iff.mpr hallfail,
        List.takeWhile_cons_of_neg (by simp [lineLE, hh])]
      simp

/-- C5.  On a non-empty (document-ordered) heading list, `updateCurrent`
sets `current` to the index of the last heading whose raw line is at most
the given line; when the line precedes the first heading `current`
becomes 0; and when the computed index equals the existing `current` the
state is returned without any update. -/
theorem updateCurrent_selects_last (m : OutlineModel) (L : Int)
    (hne : m.headings ≠ [])
    (hsort : m.headings.Pairwise (fun a b => a.line < b.line)) :
    ((m.updateCurrent L).current = (lastIdxLE m.headings L : Int)) ∧
    (L < ((m.headings.getD 0 default).line : Int) → (m.updateCurrent L).current = 0) ∧
    ((lastIdxLE m.headings L : Int) = m.current → m.updateCurrent L = m) := by
  have hscan : scanCurrent L m.headings 0 0 = (lastIdxLE m.headings L : Int) := by
    rw [scanCurrent_closed]
    unfold lastIdxLE
    have henum : m.headings.enum = List.enumFrom 0 m.headings := rfl
    rw [henum, lastIdxLE_enumFrom L m.headings 0 hsort]
    by_cases h0 : (m.headings.takeWhile (lineLE L)).length = 0 <;> simp [h0] <;> omega
  constructor
  · unfold OutlineModel.updateCurrent
    rw [if_neg hne]
    by_cases hc : scanCurrent L m.headings 0 0 ≠ m.current
    · rw [if_pos hc]; exact hscan
    · rw [if_neg hc]
      rw [not_not] at hc
      rw [← hc]; exact hscan
  constructor
  · intro hfirst
    have htw : (m.headings.takeWhile (lineLE L)).length = 0 := by
      rcases hh : m.headings with _ | ⟨h, t⟩
      · simp [List.takeWhile]
      · have : lineLE L h = false := by
          rw [hh] at hfirst
          simp only [List.getD_cons_zero] at hfirst
          simp [lineLE]
          omega
        simp [List.takeWhile_cons, this]
    have hzero : scanCurrent L m.headings 0 0 = 0 := by
      rw [scanCurrent_closed, if_pos htw]
    unfold OutlineModel.updateCurrent
    rw [if_neg hne]
    by_cases hc : scanCurrent L m.headings 0 0 ≠ m.current
    · rw [if_pos hc]; exact hzero
    · rw [if_neg hc]
      rw [not_not] at hc
      rw [← hc]; exact hzero
  · intro heq
    unfold OutlineModel.updateCurrent
    rw [if_neg hne, if_neg (by rw [hscan, heq]; exact fun hne2 => hne2 rfl)]

/-- Witness for C5 at a concrete three-heading document and line 2: the
update selects heading index 1. -/
theorem updateCurrent_selects_last_witness :
    ((initOutline.setContent "# H1\ntext\n## H2\nmore text\n### H3").updateCurrent 2).current
      = (lastIdxLE (initOutline.setContent "# H1\ntext\n## H2\nmore text\n### H3").headings 2 : Int) :=
  (updateCurrent_selects_last _ 2 (by decide) (by decide)).1

/-!
Claims C4 and C8: ordering and index invariants over reachable states.
-/

theorem parseHeadingsAux_le :
    ∀ (ls : List (List Char)) (i : Nat) (b : Bool) (h : Heading),
      h ∈ parseHeadingsAux ls i b → i ≤ h.line := by
  intro ls
  induction ls with
  | nil => intro i b h hmem; simp [parseHeadingsAux] at hmem
  | cons l ls ih =>
    intro i b h hmem
    rw [parseHeadingsAux] at hmem
    split at hmem
    · exact Nat.le_of_succ_le (ih (i + 1) _ h hmem)
    · split at hmem
      · exact Nat.le_of_succ_le (ih (i + 1) _ h hmem)
      · split at hmem
        · rcases List.mem_cons.mp hmem with rfl | hmem'
          · exact Nat.le_refl _
          · exact Nat.le_of_succ_le (ih (i + 1) _ h hmem')
        · exact Nat.le_of_succ_le (ih (i + 1) _ h hmem)

theorem parseHeadingsAux_pairwise :
    ∀ (ls : List (List Char)) (i : Nat) (b : Bool),
      (parseHeadingsAux ls i b).Pairwise (fun a c => a.line < c.line) := by
  intro ls
  induction ls with
  | nil => intro i b; simp [parseHeadingsAux]
  | cons l ls ih =>
    intro i b
    rw [parseHeadingsAux]
    split
    · exact ih (i + 1) _
    · split
      · exact ih (i + 1) _
      · split
        · refine List.Pairwise.cons ?_ (ih (i + 1) b)
          intro h' hm'
          have := parseHeadingsAux_le ls (i + 1) b h' hm'
          simp only []
          omega
        · exact ih (i + 1) _

theorem parseHeadings_pairwise (md : String) :
    (parseHeadings md).Pairwise (fun a b => a.line < b.line) :=
  parseHeadingsAux_pairwise _ 0 false

theorem mapHeadingsAux_map_line :
    ∀ (hs : List Heading) (rls : List (List Char)) (st : Nat),
      (mapHeadingsAux rls hs st).map Heading.line = hs.map Heading.line := by
  intro hs
  induction hs with
  | nil => intro rls st; simp [mapHeadingsAux]
  | cons h t ih =>
    intro rls st
    rw [mapHeadingsAux]
    split <;> simp [ih]

theorem mapHeadingsAux_length (hs : List Heading) (rls : List (List Char)) (st : Nat) :
    (mapHeadingsAux rls hs st).length = hs.length := by
  have := congrArg List.length (mapHeadingsAux_map_line hs rls st)
  simpa using this

theorem mapRendered_headings_pairwise {m : OutlineModel} (s : String)
    (h : m.headings.Pairwise (fun a b => a.line < b.line)) :
    (m.mapHeadingsToRenderedLines s).headings.Pairwise (fun a b => a.line < b.line) := by
  unfold OutlineModel.mapHeadingsToRenderedLines
  split
  · exact h
  · have h' : (m.headings.map Heading.line).Pairwise (· < ·) :=
      List.pairwise_map.mpr h
    have h2 := (mapHeadingsAux_map_line m.headings
      ((splitLines s.data).map normLine) 0) ▸ h'
    exact List.pairwise_map.mp h2

theorem step_preserves_pairwise {m m' : OutlineModel} (hstep : OutlineStep m m')
    (h : m.headings.Pairwise (fun a b => a.line < b.line)) :
    m'.headings.Pairwise (fun a b => a.line < b.line) := by
  cases hstep with
  | setContent md => exact parseHeadings_pairwise md
  | setSize w hh => exact h
  | moveUp => unfold OutlineModel.moveCursorUp; split <;> exact h
  | moveDown => unfold OutlineModel.moveCursorDown; split <;> exact h
  | cursorHome => exact h
  | cursorEnd => unfold OutlineModel.cursorEnd; split <;> exact h
  | syncCursor => exact h
  | setVisible b => exact h
  | setFocused b => exact h
  | updateCur l =>
    unfold OutlineModel.updateCurrent
    split
    · exact h
    · dsimp only
      split <;> exact h
  | jumpSel i => unfold OutlineModel.jumpSelect; split <;> exact h
  | mapRendered s => exact mapRendered_headings_pairwise s h

theorem scanCurrent_bounds (L : Int) (hs : List Heading) (hne : hs ≠ []) :
    0 ≤ scanCurrent L hs 0 0 ∧ scanCurrent L hs 0 0 < (hs.length : Int) := by
  rw [scanCurrent_closed]
  have hlen : 0 < hs.length := List.length_pos.mpr hne
  have hle : (hs.takeWhile (lineLE L)).length ≤ hs.length :=
    (List.takeWhile_prefix _).length_le
  split <;> omega

theorem step_preserves_range {m m' : OutlineModel} (hstep : OutlineStep m m')
    (h : cursorCurrentInRange m) : cursorCurrentInRange m' := by
  obtain ⟨hemp, hne⟩ := h
  cases hstep with
  | setContent md =>
    constructor
    · intro _; exact ⟨rfl, rfl⟩
    · intro hne'
      have hpos : 0 < (parseHeadings md).length := List.length_pos.mpr (by
        simpa [OutlineModel.setContent] using hne')
      have hpos' : (0 : Int) < ((parseHeadings md).length : Int) := by exact_mod_cast hpos
      exact ⟨le_refl _, hpos', le_refl _, hpos'⟩
  | setSize w hh => exact ⟨hemp, hne⟩
  | moveUp =>
    unfold OutlineModel.moveCursorUp
    split
    · rename_i hc
      constructor
      · intro he
        exfalso
        rcases hemp he with ⟨h1, _⟩
        omega
      · intro hne'
        rcases hne (by simpa using hne') with ⟨h1, h2, h3, h4⟩
        dsimp only
        exact ⟨by omega, by omega, h3, h4⟩
    · exact ⟨hemp, hne⟩
  | moveDown =>
    unfold OutlineModel.moveCursorDown
    split
    · rename_i hc
      constructor
      · intro he
        exfalso
        rcases hemp he with ⟨h1, _⟩
        rw [he] at hc
        simp at hc
        omega
      · intro hne'
        rcases hne (by simpa using hne') with ⟨h1, h2, h3, h4⟩
        dsimp only at hc ⊢
        exact ⟨by omega, by omega, h3, h4⟩
    · exact ⟨hemp, hne⟩
  | cursorHome =>
    constructor
    · intro he; exact ⟨rfl, (hemp he).2⟩
    · intro hne'
      rcases hne hne' with ⟨h1, h2, h3, h4⟩
      have hpos : 0 < m.headings.length := List.length_pos.mpr hne'
      have hpos' : (0 : Int) < (m.headings.length : Int) := by exact_mod_cast hpos
      exact ⟨le_refl _, hpos', h3, h4⟩
  | cursorEnd =>
    unfold OutlineModel.cursorEnd
    split
    · rename_i hc
      constructor
      · intro he; rw [he] at hc; simp at hc
      · intro hne'
        rcases hne (by simpa using hne') with ⟨h1, h2, h3, h4⟩
        have hpos : 0 < m.headings.length := by simpa using hc
        dsimp only
        refine ⟨by omega, by omega, h3, h4⟩
    · exact ⟨hemp, hne⟩
  | syncCursor =>
    constructor
    · intro he; exact ⟨(hemp he).2, (hemp he).2⟩
    · intro hne'
      rcases hne hne' with ⟨h1, h2, h3, h4⟩
      exact ⟨h3, h4, h3, h4⟩
  | setVisible b => exact ⟨hemp, hne⟩
  | setFocused b => exact ⟨hemp, hne⟩
  | updateCur l =>
    unfold OutlineModel.updateCurrent
    split
    · exact ⟨hemp, hne⟩
    · rename_i hc
      dsimp only
      split
      · constructor
        · intro he; exact absurd he hc
        · intro _
          rcases hne hc with ⟨h1, h2, _, _⟩
          have hb := scanCurrent_bounds l m.headings hc
          exact ⟨h1, h2, hb.1, hb.2⟩
      · exact ⟨hemp, hne⟩
  | jumpSel i =>
    unfold OutlineModel.jumpSelect
    split
    · rename_i hc
      constructor
      · intro he
        exfalso
        rw [he] at hc
        simp at hc
        omega
      · intro _
        exact ⟨hc.1, hc.2, hc.1, hc.2⟩
    · exact ⟨hemp, hne⟩
  | mapRendered s =>
    unfold OutlineModel.mapHeadingsToRenderedLines
    split
    · exact ⟨hemp, hne⟩
    · have hlen := mapHeadingsAux_length m.headings
        ((splitLines s.data).map normLine) 0
      constructor
      · intro he
        have hml : m.headings.length = 0 := by
          rw [← hlen]
          exact congrArg List.length he
        exact hemp (List.length_eq_zero.mp hml)
      · intro hne'
        have hne2 : m.headings ≠ [] := by
          intro he0
          apply hne'
          show mapHeadingsAux _ m.headings 0 = []
          rw [he0]
          rfl
        rcases hne hne2 with ⟨h1, h2, h3, h4⟩
        refine ⟨h1, ?_, h3, ?_⟩
        · show m.cursor < ((mapHeadingsAux ((splitLines s.data).map normLine) m.headings 0).length : Int)
          rw [hlen]; exact h2
        · show m.current < ((mapHeadingsAux ((splitLines s.data).map normLine) m.headings 0).length : Int)
          rw [hlen]; exact h4

theorem reachable_pairwise (m : OutlineModel) (hr : ReachableOutline m) :
    m.headings.Pairwise (fun a b => a.line < b.line) := by
  induction hr with
  | refl => simp [initOutline]
  | tail hsteps hstep ih => exact step_preserves_pairwise hstep ih

theorem reachable_range (m : OutlineModel) (hr : ReachableOutline m) :
    cursorCurrentInRange m := by
  induction hr with
  | refl =>
    constructor
    · intro _; exact ⟨rfl, rfl⟩
    · intro hne; exact absurd rfl hne
  | tail hsteps hstep ih => exact step_preserves_range hstep ih

/-- C4.  Heading lists are strictly increasing in the raw `line` field:
`parseHeadings` always produces such a list, and — since headings are only
rebuilt in full (`setContent`) or re-annotated line-preservingly (the
rendered-line mapper) — every reachable outline state keeps the order. -/
theorem headings_strictly_increasing :
    (∀ md : String, (parseHeadings md).Pairwise (fun a b => a.line < b.line)) ∧
    (∀ m : OutlineModel, ReachableOutline m →
      m.headings.Pairwise (fun a b => a.line < b.line)) :=
  ⟨parseHeadings_pairwise, reachable_pairwise⟩

/-- Witness for C4: a reachable state (one `setContent` from the initial
outline) has its headings strictly increasing in `line`. -/
theorem headings_strictly_increasing_witness :
    (initOutline.setContent "# A\nx\n## B\n### C").headings.Pairwise
      (fun a b => a.line < b.line) :=
  headings_strictly_increasing.2 _
    (Relation.ReflTransGen.single (OutlineStep.setContent initOutline "# A\nx\n## B\n### C"))

/-- C8.  In every reachable outline state, `cursor` and `current` are 0 on
an empty heading list — on which `moveCursorUp` and `moveCursorDown` are
exact no-ops — and lie within [0, count-1] otherwise. -/
theorem cursor_current_in_range (m : OutlineModel) (hr : ReachableOutline m) :
    (m.headings = [] → m.cursor = 0 ∧ m.current = 0 ∧
      m.moveCursorUp = m ∧ m.moveCursorDown = m) ∧
    (m.headings ≠ [] → 0 ≤ m.cursor ∧ m.cursor ≤ (m.headings.length : Int) - 1 ∧
      0 ≤ m.current ∧ m.current ≤ (m.headings.length : Int) - 1) := by
  obtain ⟨hemp, hne⟩ := reachable_range m hr
  constructor
  · intro he
    obtain ⟨h1, h2⟩ := hemp he
    refine ⟨h1, h2, ?_, ?_⟩
    · unfold OutlineModel.moveCursorUp
      rw [if_neg (by omega)]
    · unfold OutlineModel.moveCursorDown
      rw [if_neg (by rw [he]; simp; omega)]
  · intro hne'
    obtain ⟨h1, h2, h3, h4⟩ := hne hne'
    exact ⟨h1, by omega, h3, by omega⟩

/-- Witness for C8: the initial outline state (empty heading list) has
cursor and current 0 and both cursor moves are no-ops. -/
theorem cursor_current_in_range_witness :
    initOutline.cursor = 0 ∧ initOutline.current = 0 ∧
    initOutline.moveCursorUp = initOutline ∧ initOutline.moveCursorDown = initOutline :=
  (cursor_current_in_range initOutline Relation.ReflTransGen.refl).1 rfl

/-!
Claim C3: headings inside fenced code blocks are never extracted.
-/

theorem parseHeadingsAux_parity :
    ∀ (ls : List (List Char)) (i0 : Nat) (b : Bool) (h : Heading),
      h ∈ parseHeadingsAux ls i0 b →
      ∃ j, h.line = i0 + j ∧
        ((ls.take j).countP (fun l => isFenceLine l) + (if b then 1 else 0)) % 2 = 0 := by
  intro ls
  induction ls with
  | nil => intro i0 b h hmem; simp [parseHeadingsAux] at hmem
  | cons l ls ih =>
    intro i0 b h hmem
    rw [parseHeadingsAux] at hmem
    split at hmem
    · rename_i hf
      obtain ⟨j', hline, hcnt⟩ := ih (i0 + 1) (!b) h hmem
      refine ⟨j' + 1, by omega, ?_⟩
      rw [List.take_succ_cons, List.countP_cons, if_pos (by simpa using hf)]
      cases b <;> simp at hcnt ⊢ <;> omega
    · rename_i hf
      split at hmem
      · rename_i hb
        obtain ⟨j', hline, hcnt⟩ := ih (i0 + 1) b h hmem
        refine ⟨j' + 1, by omega, ?_⟩
        rw [List.take_succ_cons, List.countP_cons, if_neg (by simpa using hf)]
        omega
      · rename_i hb
        have hbf : b = false := by simpa using hb
        subst hbf
        split at hmem
        · rcases List.mem_cons.mp hmem with rfl | hmem'
          · exact ⟨0, rfl, by simp⟩
          · obtain ⟨j', hline, hcnt⟩ := ih (i0 + 1) false h hmem'
            refine ⟨j' + 1, by omega, ?_⟩
            rw [List.take_succ_cons, List.countP_cons, if_neg (by simpa using hf)]
            omega
        · obtain ⟨j', hline, hcnt⟩ := ih (i0 + 1) false h hmem
          refine ⟨j' + 1, by omega, ?_⟩
          rw [List.take_succ_cons, List.countP_cons, if_neg (by simpa using hf)]
          omega

/-- C3.  A line inside a fenced code block (odd number of preceding fence
lines, either fence style) is never the line of an extracted heading; and
the fenced example document yields exactly its two real headings. -/
theorem fenced_headings_never_extracted :
    (∀ (md : String) (i : Nat), insideFence md i →
        ∀ h ∈ parseHeadings md, h.line ≠ i) ∧
    ((parseHeadings "# Real\n```\n# fake\n```\n## Also Real").map
        (fun h => (h.level, h.text, h.line))
      = [(1, "Real", 0), (2, "Also Real", 4)]) := by
  constructor
  · intro md i hf h hmem heq
    obtain ⟨j, hline, hcnt⟩ := parseHeadingsAux_parity (splitLines md.data) 0 false h hmem
    unfold insideFence at hf
    have hj : j = i := by omega
    rw [hj] at hcnt
    simp at hcnt
    omega
  · decide

/-- Witness for C3: in a document whose third line sits inside a backtick
fence, the one extracted heading is not at that line. -/
theorem fenced_headings_never_extracted_witness :
    (Heading.mk 1 "A" 0 (-1)).line ≠ 2 :=
  fenced_headings_never_extracted.1 "# A\n```\n# x" 2 (by unfold insideFence; decide)
    ⟨1, "A", 0, -1⟩ (by decide)

/-!
Claim C2: stripping of trailing closing-hash runs.
-/

theorem closingRun_head_false {d : Char} (hd : goWS d = false) (ds : List Char) :
    closingRun (d :: ds) = false := by
  unfold closingRun
  rw [List.takeWhile_cons_of_neg (by simp [hd])]
  rfl

theorem afterFirst_all_nonws :
    ∀ {l : List Char}, (∀ c ∈ l, goWS c = false) → afterFirst l = l
  | [], _ => rfl
  | d :: ds, h => by
    rw [afterFirst, if_neg (by simp [closingRun_head_false (h d (by simp)) ds]),
      afterFirst_all_nonws (fun c hc => h c (by simp [hc]))]

theorem afterFirst_append_close :
    ∀ {t : List Char}, (∀ c ∈ t, goWS c = false) →
      afterFirst (t ++ [' ', '#', '#']) = t
  | [], _ => by decide
  | d :: ds, h => by
    rw [List.cons_append, afterFirst,
      if_neg (by simp [closingRun_head_false (h d (by simp)) _]),
      afterFirst_append_close (fun c hc => h c (by simp [hc]))]

theorem goWS_false_of_goIsSpace_false {c : Char} (h : goIsSpace c = false) :
    goWS c = false := by
  cases hw : goWS c
  · rfl
  · exfalso
    have hw' : c = '\t' ∨ c = '\n' ∨ c = '\x0c' ∨ c = '\r' ∨ c = ' ' := by
      simpa [goWS, or_assoc] using hw
    rcases hw' with rfl | rfl | rfl | rfl | rfl <;> exact absurd h (by decide)

theorem ne_nl_of_goIsSpace_false {c : Char} (h : goIsSpace c = false) :
    c ≠ '\n' := by
  intro rfl_eq
  subst rfl_eq
  exact absurd h (by decide)

theorem matchHeading_shape (c0 : Char) (tl : List Char) (hc0 : goWS c0 = false) :
    matchHeading ('#' :: ' ' :: c0 :: tl) = some (1, c0 :: afterFirst tl) := by
  unfold matchHeading
  rw [List.takeWhile_cons_of_pos (by decide), List.takeWhile_cons_of_neg (by decide)]
  dsimp only
  rw [if_neg (by simp)]
  rw [show List.drop (['#'] : List Char).length ('#' :: ' ' :: c0 :: tl) = ' ' :: c0 :: tl
    from rfl]
  rw [List.takeWhile_cons_of_pos (by decide), List.takeWhile_cons_of_neg (by simp [hc0])]
  rw [if_neg (by simp)]
  rw [if_neg (by simp only [List.length_cons, List.length_nil]; omega)]
  rfl

theorem isFenceLine_hash (l : List Char) : isFenceLine ('#' :: l) = false := by
  unfold isFenceLine
  rw [trimSpace_cons (by decide)]
  rfl

theorem parseHeadings_hash_line (c0 : Char) (tl : List Char)
    (hc0 : goIsSpace c0 = false) (hnl : ∀ c ∈ tl, c ≠ '\n') :
    parseHeadings (String.mk ('#' :: ' ' :: c0 :: tl)) =
      [⟨1, String.mk (trimSpace (c0 :: afterFirst tl)), 0, -1⟩] := by
  unfold parseHeadings
  rw [show (String.mk ('#' :: ' ' :: c0 :: tl)).data = '#' :: ' ' :: c0 :: tl from rfl]
  rw [splitLines_no_nl (by
    intro c hc
    rcases List.mem_cons.mp hc with rfl | hc
    · decide
    rcases List.mem_cons.mp hc with rfl | hc
    · decide
    rcases List.mem_cons.mp hc with rfl | hc
    · exact ne_nl_of_goIsSpace_false hc0
    · exact hnl c hc)]
  rw [parseHeadingsAux, if_neg (by simp [isFenceLine_hash])]
  rw [matchHeading_shape c0 tl (goWS_false_of_goIsSpace_false hc0)]
  rfl

/-- C2 counterexample.  The heading line "# Title##", whose trailing hash
run is not preceded by a space, keeps the hashes in its stored text — the
claim's expected text "Title" is not produced. -/
theorem trailing_hashes_unstripped_cex :
    parseHeadings "# Title##" = [⟨1, "Title##", 0, -1⟩] ∧
    (parseHeadings "# Title##").map Heading.text ≠ ["Title"] := by
  decide

/-- C2 amended.  A trailing run of `#` is stripped exactly when white
space separates it from the heading text: for any non-empty text `t` of
non-space characters, "# t ##" stores `t` while "# t##" stores "t##". -/
theorem trailing_hashes_strip_amended (t : String) (h1 : t.data ≠ [])
    (h2 : ∀ c ∈ t.data, goIsSpace c = false) :
    parseHeadings (String.mk ('#' :: ' ' :: (t.data ++ [' ', '#', '#'])))
      = [⟨1, t, 0, -1⟩] ∧
    parseHeadings (String.mk ('#' :: ' ' :: (t.data ++ ['#', '#'])))
      = [⟨1, String.mk (t.data ++ ['#', '#']), 0, -1⟩] := by
  rcases ht : t.data with _ | ⟨c0, t'⟩
  · exact absurd ht h1
  have hc0 : goIsSpace c0 = false := h2 c0 (by rw [ht]; simp)
  have ht' : ∀ c ∈ t', goIsSpace c = false := fun c hc => h2 c (by rw [ht]; simp [hc])
  have ht'ws : ∀ c ∈ t', goWS c = false :=
    fun c hc => goWS_false_of_goIsSpace_false (ht' c hc)
  constructor
  · rw [List.cons_append, parseHeadings_hash_line c0 (t' ++ [' ', '#', '#']) hc0 (by
      intro c hc
      rcases List.mem_append.mp hc with hc | hc
      · exact ne_nl_of_goIsSpace_false (ht' c hc)
      · rcases List.mem_cons.mp hc with rfl | hc
        · decide
        rcases List.mem_cons.mp hc with rfl | hc
        · decide
        rcases List.mem_cons.mp hc with rfl | hc
        · decide
        · simp at hc)]
    rw [afterFirst_append_close ht'ws]
    rw [trimSpace_eq_self_of_all (by
      intro c hc
      rcases List.mem_cons.mp hc with rfl | hc
      · exact hc0
      · exact ht' c hc)]
    rw [← ht]
  · rw [List.cons_append, parseHeadings_hash_line c0 (t' ++ ['#', '#']) hc0 (by
      intro c hc
      rcases List.mem_append.mp hc with hc | hc
      · exact ne_nl_of_goIsSpace_false (ht' c hc)
      · rcases List.mem_cons.mp hc with rfl | hc
        · decide
        rcases List.mem_cons.mp hc with rfl | hc
        · decide
        · simp at hc)]
    rw [afterFirst_all_nonws (by
      intro c hc
      rcases List.mem_append.mp hc with hc | hc
      · exact ht'ws c hc
      · rcases List.mem_cons.mp hc with rfl | hc
        · decide
        rcases List.mem_cons.mp hc with rfl | hc
        · decide
        · simp at hc)]
    rw [trimSpace_eq_self_of_all (by
      intro c hc
      rcases List.mem_cons.mp hc with rfl | hc
      · exact hc0
      rcases List.mem_append.mp hc with hc | hc
      · exact ht' c hc
      · rcases List.mem_cons.mp hc with rfl | hc
        · decide
        rcases List.mem_cons.mp hc with rfl | hc
        · decide
        · simp at hc)]

/-- Witness for C2's amended theorem at text "Title": "# Title ##" strips
the hashes, "# Title##" keeps them. -/
theorem trailing_hashes_strip_amended_witness :
    parseHeadings (String.mk ('#' :: ' ' :: ("Title".data ++ [' ', '#', '#'])))
      = [⟨1, "Title", 0, -1⟩] ∧
    parseHeadings (String.mk ('#' :: ' ' :: ("Title".data ++ ['#', '#'])))
      = [⟨1, String.mk ("Title".data ++ ['#', '#']), 0, -1⟩] :=
  trailing_hashes_strip_amended "Title" (by decide) (by decide)

/-!
Claims C6 and C1: the jump computation and the jump/update round trip.
-/

theorem getD_of_lt {l : List Heading} {n : Nat} (h : n < l.length) :
    l.getD n default = l[n] := by
  rw [List.getD_eq_getElem?_getD, List.getElem?_eq_getElem h]
  rfl

theorem jump_fields (m : PagerModel) (i : Int) (h0 : 0 ≤ i)
    (h1 : i < (m.outline.headings.length : Int)) :
    (jumpToHeading m i).viewport.yOffset
      = min (max (jumpTarget m i - scrollOff) 0)
          (max ((m.viewport.lineCount : Int) - m.viewport.height) 0) ∧
    (jumpToHeading m i).outline.current = i ∧
    (jumpToHeading m i).outline.cursor = i ∧
    (jumpToHeading m i).outline.headings = m.outline.headings ∧
    (jumpToHeading m i).viewport.lineCount = m.viewport.lineCount ∧
    (jumpToHeading m i).body = m.body := by
  have hlt : i.toNat < m.outline.headings.length := by omega
  have hidx : m.outline.headings[i.toNat]?
      = some (m.outline.headings.getD i.toNat default) := by
    rw [List.getElem?_eq_getElem hlt, getD_of_lt hlt]
  unfold jumpToHeading
  rw [if_neg (by omega), hidx]
  dsimp only
  rw [if_neg (by rintro ⟨h', heq⟩; omega)]
  refine ⟨?_, rfl, rfl, rfl, rfl, rfl⟩
  dsimp only
  unfold jumpTarget
  generalize hT : (if (m.outline.headings.getD i.toNat default).renderedLine < 0 then
      goScale ((m.outline.headings.getD i.toNat default).line : Int)
        ((countNL m.body : Int) + 1) (m.viewport.lineCount : Int)
    else (m.outline.headings.getD i.toNat default).renderedLine) = T
  generalize (m.viewport.lineCount : Int) - m.viewport.height = X
  simp only [min_def, max_def]
  split_ifs <;> omega

/-- C6.  For every in-range heading index, the jump sets the viewport
offset to the target line (the resolved `renderedLine`, otherwise the
ratio fallback) minus the scroll-off constant clamped below at 0, clamped
to [0, totalRenderedLines - viewportHeight] with a negative upper bound
treated as 0, and makes the index both `current` and `cursor`. -/
theorem jumpToHeading_in_range_spec (m : PagerModel) (i : Int) (h0 : 0 ≤ i)
    (h1 : i < (m.outline.headings.length : Int)) :
    (jumpToHeading m i).viewport.yOffset
      = min (max (jumpTarget m i - scrollOff) 0)
          (max ((m.viewport.lineCount : Int) - m.viewport.height) 0) ∧
    (jumpToHeading m i).outline.current = i ∧
    (jumpToHeading m i).outline.cursor = i := by
  obtain ⟨hy, hc, hk, _⟩ := jump_fields m i h0 h1
  exact ⟨hy, hc, hk⟩

/-- Witness for C6 at the concrete pager: jumping to heading 1 (rendered
line 50) scrolls to 50 - 5 = 45 and selects index 1. -/
theorem jumpToHeading_in_range_spec_witness :
    (jumpToHeading cexPager 1).viewport.yOffset = 45 ∧
    (jumpToHeading cexPager 1).outline.current = 1 ∧
    (jumpToHeading cexPager 1).outline.cursor = 1 := by
  obtain ⟨hy, hc, hk⟩ := jumpToHeading_in_range_spec cexPager 1 (by decide) (by decide)
  exact ⟨hy.trans (by decide), hc, hk⟩

theorem takeWhile_length_eq (P : Heading → Bool) :
    ∀ (hs : List Heading) (k : Nat), k ≤ hs.length →
      (∀ j, j < k → P (hs.getD j default) = true) →
      (k < hs.length → P (hs.getD k default) = false) →
      (hs.takeWhile P).length = k
  | [], k, hk, _, _ => by
    have hk0 : k ≤ 0 := by simpa using hk
    simp [List.takeWhile]
    omega
  | h :: t, 0, _, _, hstop => by
    have h0 : P h = false := by simpa using hstop (by simp)
    rw [List.takeWhile_cons_of_neg (by simp [h0])]
    rfl
  | h :: t, k + 1, hk, hall, hstop => by
    have h0 : P h = true := by simpa using hall 0 (Nat.succ_pos k)
    rw [List.takeWhile_cons_of_pos (by simp [h0])]
    rw [List.length_cons]
    rw [takeWhile_length_eq P t k (by simp only [List.length_cons] at hk; omega)
      (fun j hj => by
        have := hall (j + 1) (by omega)
        simpa using this)
      (fun hk2 => by
        have := hstop (by simp only [List.length_cons]; omega)
        simpa using this)]

/-- C1 counterexample.  In the concrete pager state, heading 1 has a
resolved rendered line (50 ≥ 0), yet jumping to it and immediately
running the scroll-to-selection update yields `current = 0`, not 1: the
ratio inversion maps rendered offset 45 of 100 to raw line 0 of 2. -/
theorem roundtrip_not_reproduced_cex :
    0 ≤ (cexPager.outline.headings.getD 1 default).renderedLine ∧
    (updateCurrentHeading (jumpToHeading cexPager (1 : Int))).outline.current ≠ (1 : Int) := by
  decide

/-- C1 amended.  The jump/update round trip reproduces `current = i`
when, additionally, the raw line recovered from the clamped offset by the
inverse ratio lands inside heading `i`'s raw span: at or after heading
`i`'s line and (when a next heading exists) before heading `i+1`'s. -/
theorem roundtrip_amended (m : PagerModel) (i : Nat)
    (hi : i < m.outline.headings.length)
    (hres : 0 ≤ (m.outline.headings.getD i default).renderedLine)
    (hsort : m.outline.headings.Pairwise (fun a b => a.line < b.line))
    (hlc : m.viewport.lineCount ≠ 0)
    (hge : ((m.outline.headings.getD i default).line : Int) ≤ recoveredRaw m i)
    (hlt : i + 1 < m.outline.headings.length →
      recoveredRaw m i < ((m.outline.headings.getD (i + 1) default).line : Int)) :
    (updateCurrentHeading (jumpToHeading m (i : Int))).outline.current = (i : Int) := by
  obtain ⟨hy, hcur, hcurs, hheads, hlcnt, hbody⟩ :=
    jump_fields m (i : Int) (by omega) (by exact_mod_cast hi)
  have hne : m.outline.headings ≠ [] := by
    intro he
    rw [he] at hi
    simp at hi
  have htw : (m.outline.headings.takeWhile (lineLE (recoveredRaw m i))).length = i + 1 := by
    apply takeWhile_length_eq
    · omega
    · intro j hj
      rcases Nat.lt_or_ge j i with hji | hji
      · have hjlt : m.outline.headings[j].line < m.outline.headings[i].line := by
          have hp := List.pairwise_iff_get.mp hsort ⟨j, by omega⟩ ⟨i, hi⟩ hji
          simpa using hp
        have hle : ((m.outline.headings.getD j default).line : Int) ≤ recoveredRaw m i := by
          rw [getD_of_lt (by omega : j < m.outline.headings.length)]
          rw [getD_of_lt hi] at hge
          omega
        simp only [lineLE, decide_eq_true_eq]
        exact hle
      · have hj' : j = i := by omega
        subst hj'
        simp only [lineLE, decide_eq_true_eq]
        exact hge
    · intro hk
      have hnext := hlt hk
      simp only [lineLE, decide_eq_false_iff_not]
      omega
  have hscan : scanCurrent (recoveredRaw m i) m.outline.headings 0 0 = (i : Int) := by
    rw [scanCurrent_closed, if_neg (by omega), htw]
    push_cast
    omega
  unfold updateCurrentHeading
  rw [if_neg (by rw [hheads]; exact hne), if_neg (by rw [hlcnt]; exact hlc)]
  dsimp only
  unfold OutlineModel.updateCurrent
  rw [if_neg (by rw [hheads]; exact hne)]
  dsimp only
  rw [hheads, hbody, hlcnt]
  rw [show goScale (jumpToHeading m (i : Int)).viewport.yOffset
      ((m.viewport.lineCount : Nat) : Int) ((countNL m.body : Int) + 1)
      = recoveredRaw m i from by rw [recoveredRaw, hlcnt, hbody]]
  split
  · rename_i hcond
    dsimp only
    rw [hscan]
  · rename_i hcond
    rw [not_not] at hcond
    rw [hscan] at hcond
    exact hcond.symm

/-- Witness for C1's amended round trip: with heading 1 rendered at line
80 the recovered raw line is 1, inside heading 1's span, and the round
trip yields `current = 1`. -/
theorem roundtrip_amended_witness :
    (updateCurrentHeading (jumpToHeading witPager (1 : Int))).outline.current = ((1 : Nat) : Int) :=
  roundtrip_amended witPager 1 (by decide) (by decide) (by decide) (by decide)
    (by decide) (fun h => absurd h (by decide))

end Glow
